import Mathlib

/-!
# Verification of the oandaohlc incremental candle-sync program

Shallow embedding of `src/main.rs`: the data model (`Candle`, `OHLC`, stored
rows), the `TableStore` operations (`resumePoint` lookup, `insert_candles`
with its retention trim, executed inside one transaction), the
`fetch_candles` request construction, and the whitelist filtering done in
`main`.  Tables are lists of rows kept in `rowid` (insertion) order; SQLite
transaction semantics (commit applies the pending state, any failure before
commit rolls back to the pre-call state) are modelled explicitly.
-/

namespace Oanda

open List

/-- Constant `MAX_CANDLES` from `main.rs`: the retention bound. -/
def MAX_CANDLES : Nat := 2000

/-- The `mid` OHLC component of an upstream candle: the four price fields
arrive as decimal strings (`o`, `h`, `l`, `c` in `struct OHLC`). -/
structure OHLC where
  o : String
  h : String
  l : String
  c : String
deriving DecidableEq, Repr

/-- An upstream candle (`struct Candle`).  `time` is the UTC timestamp in
seconds since epoch (the code only ever uses `candle.time.timestamp()`);
`volume` arrives as a JSON number, modelled as a rational. -/
structure Candle where
  time : Int
  complete : Bool
  volume : Rat
  mid : OHLC
deriving DecidableEq, Repr

/-- One stored row of a candle table, matching the schema created by
`setup_table`: `(timestamp INTEGER, open REAL, high REAL, low REAL,
close REAL, volume REAL)`.  REAL values are modelled as rationals. -/
structure Row where
  timestamp : Int
  op : Rat
  hi : Rat
  lo : Rat
  cl : Rat
  volume : Rat
deriving DecidableEq, Repr

/-- Fold a list of decimal digit characters into the natural number they
denote. -/
def digitsToNat (ds : List Char) : Nat :=
  ds.foldl (fun n d => n * 10 + (d.toNat - 48)) 0

/-- Shallow model of Rust's `str::parse::<f64>()` on plain decimal strings:
an optional sign, an integer part and an optional fractional part, at least
one digit overall (the grammar's exponent, `inf` and `NaN` forms are not
exercised by this program's price data and are omitted).  Returns `none`
exactly when the string fails to parse; the parsed value (modelled as an
exact rational) is otherwise never defaulted. -/
def parseDecimal (s : String) : Option Rat :=
  let step : Bool × List Char → Option Rat := fun (neg, cs) =>
    let intPart := cs.takeWhile Char.isDigit
    let rest := cs.dropWhile Char.isDigit
    match rest with
    | [] =>
        if intPart.isEmpty then none
        else
          let v : Rat := (digitsToNat intPart : Rat)
          some (if neg then -v else v)
    | '.' :: frac =>
        if frac.all Char.isDigit ∧ (intPart ≠ [] ∨ frac ≠ []) then
          let v : Rat :=
            (digitsToNat intPart : Rat) +
              (digitsToNat frac : Rat) / ((10 : Rat) ^ frac.length)
          some (if neg then -v else v)
        else none
    | _ => none
  match s.data with
  | '-' :: cs => step (true, cs)
  | '+' :: cs => step (false, cs)
  | cs => step (false, cs)

/-- Parse the four OHLC price strings of a candle into a stored row,
exactly as the `params![...]` of `insert_candles` does
(`candle.mid.o.parse::<f64>()`, etc.).  `none` when any field fails to
parse — in the code each failure is an `unwrap()` panic. -/
def parseRow (c : Candle) : Option Row :=
  match parseDecimal c.mid.o, parseDecimal c.mid.h,
      parseDecimal c.mid.l, parseDecimal c.mid.c with
  | some o, some h, some l, some cl =>
      some { timestamp := c.time, op := o, hi := h, lo := l, cl := cl,
             volume := c.volume }
  | _, _, _, _ => none

/-- Ordering used by the trim statement's
`ORDER BY timestamp DESC`, on rows paired with their rowid (list position):
newer timestamps first, ties broken by rowid so the order is total. -/
def rowDescOrd (a b : Nat × Row) : Prop :=
  b.2.timestamp < a.2.timestamp ∨
    (a.2.timestamp = b.2.timestamp ∧ a.1 ≤ b.1)

instance : DecidableRel rowDescOrd := fun a b => by
  unfold rowDescOrd; infer_instance

instance : IsTotal (Nat × Row) rowDescOrd where
  total a b := by
    rcases lt_trichotomy a.2.timestamp b.2.timestamp with h | h | h
    · exact Or.inr (Or.inl h)
    · rcases Nat.le_total a.1 b.1 with h' | h'
      · exact Or.inl (Or.inr ⟨h, h'⟩)
      · exact Or.inr (Or.inr ⟨h.symm, h'⟩)
    · exact Or.inl (Or.inl h)

instance : IsTrans (Nat × Row) rowDescOrd where
  trans a b c hab hbc := by
    rcases hab with h1 | ⟨e1, l1⟩ <;> rcases hbc with h2 | ⟨e2, l2⟩
    · exact Or.inl (h2.trans h1)
    · exact Or.inl (e2 ▸ h1)
    · exact Or.inl (e1 ▸ h2)
    · exact Or.inr ⟨e1.trans e2, l1.trans l2⟩

/-- The rows of `t` paired with their rowids and sorted as the trim
statement's subquery orders them: `ORDER BY timestamp DESC`. -/
def sortedByTsDesc (t : List Row) : List (Nat × Row) :=
  (t.enum).insertionSort rowDescOrd

/-- The rowids selected by the trim statement's subquery
`SELECT rowid FROM t ORDER BY timestamp DESC LIMIT -1 OFFSET max`:
everything past the first `max` rows in descending-timestamp order. -/
def trimVictims (max : Nat) (t : List Row) : List Nat :=
  ((sortedByTsDesc t).drop max).map Prod.fst

/-- The retention-trim statement of `insert_candles`:
`DELETE FROM t WHERE rowid IN (SELECT rowid FROM t ORDER BY timestamp DESC
LIMIT -1 OFFSET max)`.  Rows whose rowid is selected by the subquery are
deleted; the survivors keep their table order. -/
def trim (max : Nat) (t : List Row) : List Row :=
  ((t.enum).filter (fun p => ! (trimVictims max t).contains p.1)).map Prod.snd

/-- The insertion loop of `insert_candles`: each complete candle is parsed
and appended (each `INSERT` assigns the next rowid, i.e. appends to the
table in list order); incomplete candles are skipped entirely.  `none` when
some complete candle has an unparseable price field (the `unwrap()` panic
path). -/
def insertComplete (candles : List Candle) (t : List Row) : Option (List Row) :=
  match candles with
  | [] => some t
  | c :: rest =>
      if c.complete then
        match parseRow c with
        | none => none
        | some r => insertComplete rest (t ++ [r])
      else insertComplete rest t

/-- Outcome of one `insert_candles` call on the durable table: either the
transaction committed, or it was rolled back (a statement failed or a parse
`unwrap()` panicked before `tx.commit()`), leaving the durable table as
recorded. -/
inductive TxOutcome where
  | committed (table : List Row)
  | rolledBack (table : List Row)
deriving DecidableEq, Repr

/-- The durable table after the call, whichever way it ended. -/
def TxOutcome.table : TxOutcome → List Row
  | .committed t => t
  | .rolledBack t => t

/-- Body of the `insert_candles` transaction: executes the per-candle
`INSERT` statements against the pending state.  `fail i` says whether the
`i`-th executed statement fails (SQLite may fail any statement); a parse
failure aborts unconditionally.  Returns the pending state and the index of
the next statement, or `none` if the transaction aborted. -/
def execInserts (fail : Nat → Bool) : List Candle → List Row → Nat →
    Option (List Row × Nat)
  | [], pending, i => some (pending, i)
  | c :: rest, pending, i =>
      if c.complete then
        match parseRow c with
        | none => none
        | some r =>
            if fail i then none
            else execInserts fail rest (pending ++ [r]) (i + 1)
      else execInserts fail rest pending i

/-- Function `insert_candles` from `main.rs`, with explicit transaction
semantics:
open a transaction on the current table, run one `INSERT` per complete
candle (parsing the price strings, `unwrap()` on failure), then the
retention `DELETE`, then `tx.commit()`.  If any statement or parse fails
before the commit, the transaction is dropped and rolls back, so the
durable table is unchanged. -/
def insert_candles (fail : Nat → Bool) (t : List Row) (candles : List Candle) :
    TxOutcome :=
  match execInserts fail candles t 0 with
  | none => .rolledBack t
  | some (pending, i) =>
      if fail i then .rolledBack t
      else .committed (trim MAX_CANDLES pending)

/-- The all-statements-succeed schedule. -/
def noFail : Nat → Bool := fun _ => false

/-- The rows that the insertion loop appends for a batch: one parsed row
per complete candle, in batch order. -/
def newRows (candles : List Candle) : List Row :=
  candles.filterMap (fun c => if c.complete then parseRow c else none)

/-- Descending-timestamp order on bare rows, used by the resume-point
query's `ORDER BY timestamp DESC`. -/
def tsDescOrd (a b : Row) : Prop := b.timestamp ≤ a.timestamp

instance : DecidableRel tsDescOrd := fun a b => by
  unfold tsDescOrd; infer_instance

instance : IsTotal Row tsDescOrd where
  total a b := Int.le_total b.timestamp a.timestamp

instance : IsTrans Row tsDescOrd where
  trans _ _ _ hab hbc := Int.le_trans hbc hab

/-- Errors a SQLite query can end in, as seen by `rusqlite::query_row`. -/
inductive DbError where
  | noRows
  | noSuchTable
deriving DecidableEq, Repr

/-- The resume-point query of `main`:
`SELECT timestamp FROM t ORDER BY timestamp DESC LIMIT 1`.  The table
argument is `none` when the table does not exist (the prepare step fails);
an existing empty table yields `QueryReturnedNoRows`. -/
def queryLastTimestamp (table : Option (List Row)) : Except DbError Int :=
  match table with
  | none => .error .noSuchTable
  | some rows =>
      match (rows.insertionSort tsDescOrd).head? with
      | none => .error .noRows
      | some r => .ok r.timestamp

/-- The resume point as `main` computes it: the query result with `.ok()`
applied, collapsing every failure into `None`.  (The
`DateTime::from_timestamp(ts, 0)` / `.timestamp()` round trip is the
identity on seconds and is elided.) -/
def resumePoint (table : Option (List Row)) : Option Int :=
  (queryLastTimestamp table).toOption

/-- The candles request assembled by `fetch_candles`: query parameters
`price=M`, `granularity`, `count=500`, plus `from={unix seconds}` when a
resume point was found. -/
structure CandleRequest where
  instrument : String
  granularity : String
  price : String
  count : Nat
  fromTime : Option Int
deriving DecidableEq, Repr

/-- Function `fetch_candles` from `main.rs`, reduced to the request it
sends: the
`from` query parameter is exactly `from_time.timestamp()` when `from` is
`Some`, and absent otherwise. -/
def fetch_candles (instrument granularity : String) (fromTime : Option Int) :
    CandleRequest :=
  { instrument := instrument, granularity := granularity, price := "M",
    count := 500, fromTime := fromTime }

/-- Modelled from the spec: the upstream candles endpoint, which is not part
of this repository.  Per §4.2, the response is bounded to the requested page
size and, when `from` is given, contains only candles strictly after that
timestamp (exclusive lower bound on time). -/
def oandaRespond (db : List Candle) (req : CandleRequest) : List Candle :=
  (match req.fromTime with
   | none => db
   | some t => db.filter (fun c => t < c.time)).take req.count

/-- One iteration of `main`'s sync loop for a single (instrument,
granularity) table: read the resume point, fetch one page of candles since
it, and append them with the retention trim.  `db` is the upstream data for
the pair. -/
def syncTable (fail : Nat → Bool) (instrument granularity : String)
    (db : List Candle) (t : List Row) : TxOutcome :=
  let resume := resumePoint (some t)
  let resp := oandaRespond db (fetch_candles instrument granularity resume)
  insert_candles fail t resp

/-- Rust's `str::to_lowercase` on the ASCII identifiers this program
handles: character-wise lowering. -/
def lowerStr (s : String) : String := ⟨s.data.map Char.toLower⟩

/-- Rust's `str::starts_with(prefix)`. -/
def startsWithStr (s p : String) : Bool := p.data.isPrefixOf s.data

/-- Rust's `str::trim`: strip whitespace from both ends. -/
def trimStr (s : String) : String :=
  ⟨((s.data.dropWhile Char.isWhitespace).reverse.dropWhile
      Char.isWhitespace).reverse⟩

/-- Rust's `str::split(sep)` on a character list: splitting the empty
string yields one empty piece, and every separator occurrence starts a new
piece. -/
def splitChars (sep : Char) : List Char → List (List Char)
  | [] => [[]]
  | c :: rest =>
      if c = sep then [] :: splitChars sep rest
      else
        match splitChars sep rest with
        | [] => [[c]]
        | piece :: pieces => (c :: piece) :: pieces

/-- The whitelist built by `main` from an explicit `--tickers` value:
`tickers.split(',').map(|s| s.trim().to_lowercase()).collect()`. -/
def parseTickers (tickers : String) : List String :=
  (splitChars ',' tickers.data).map (fun cs => lowerStr (trimStr ⟨cs⟩))

/-- The instrument filter of `main`'s sync loop:
`all_instruments.iter().filter(|inst| whitelist.iter().any(|w|
inst.to_lowercase().starts_with(w)))`. -/
def selectInstruments (whitelist : List String) (catalog : List String) :
    List String :=
  catalog.filter (fun inst =>
    whitelist.any (fun w => startsWithStr (lowerStr inst) w))

/-- The rows the trim statement deletes, in descending-timestamp order:
everything past the first `max` of the subquery's ordering. -/
def removedRows (max : Nat) (t : List Row) : List Row :=
  ((sortedByTsDesc t).drop max).map Prod.snd

lemma sortedByTsDesc_perm (t : List Row) : sortedByTsDesc t ~ t.enum :=
  List.perm_insertionSort _ _

lemma sortedByTsDesc_sorted (t : List Row) :
    List.Sorted rowDescOrd (sortedByTsDesc t) :=
  List.sorted_insertionSort _ _

lemma sortedByTsDesc_length (t : List Row) :
    (sortedByTsDesc t).length = t.length := by
  rw [(sortedByTsDesc_perm t).length_eq, List.enum_length]

lemma sortedByTsDesc_fst_nodup (t : List Row) :
    ((sortedByTsDesc t).map Prod.fst).Nodup := by
  have h : (sortedByTsDesc t).map Prod.fst ~ t.enum.map Prod.fst :=
    (sortedByTsDesc_perm t).map _
  rw [List.enum_map_fst] at h
  exact h.nodup_iff.mpr (List.nodup_range _)

lemma contains_nat_iff (l : List Nat) (n : Nat) :
    l.contains n = true ↔ n ∈ l := by
  simp

/-- Inside the sorted order, the trim's `DELETE ... WHERE rowid IN`
predicate keeps exactly the first `max` rows. -/
lemma filter_not_victim_eq_take (max : Nat) (t : List Row) :
    (sortedByTsDesc t).filter (fun p => ! (trimVictims max t).contains p.1)
      = (sortedByTsDesc t).take max := by
  have hnd : (((sortedByTsDesc t).take max).map Prod.fst
      ++ ((sortedByTsDesc t).drop max).map Prod.fst).Nodup := by
    rw [← List.map_append, List.take_append_drop]
    exact sortedByTsDesc_fst_nodup t
  have hdisj := (List.nodup_append.mp hnd).2.2
  have h1 : ((sortedByTsDesc t).take max).filter
      (fun p => ! (trimVictims max t).contains p.1)
      = (sortedByTsDesc t).take max := by
    refine List.filter_eq_self.mpr (fun p hp => ?_)
    have hfst : p.1 ∉ trimVictims max t := by
      intro hmem
      exact hdisj (List.mem_map_of_mem Prod.fst hp) hmem
    simp [hfst]
  have h2 : ((sortedByTsDesc t).drop max).filter
      (fun p => ! (trimVictims max t).contains p.1) = [] := by
    refine List.filter_eq_nil_iff.mpr (fun p hp => ?_)
    have hfst : p.1 ∈ trimVictims max t := List.mem_map_of_mem Prod.fst hp
    simp [hfst]
  calc (sortedByTsDesc t).filter (fun p => ! (trimVictims max t).contains p.1)
      = (((sortedByTsDesc t).take max) ++ ((sortedByTsDesc t).drop max)).filter
          (fun p => ! (trimVictims max t).contains p.1) := by
        rw [List.take_append_drop]
    _ = (sortedByTsDesc t).take max := by
        rw [List.filter_append, h1, h2, List.append_nil]

/-- The trim result is, up to table order, the first `max` rows of the
descending-timestamp ordering. -/
lemma trim_perm_take (max : Nat) (t : List Row) :
    trim max t ~ ((sortedByTsDesc t).take max).map Prod.snd := by
  unfold trim
  refine List.Perm.map Prod.snd ?_
  calc t.enum.filter (fun p => ! (trimVictims max t).contains p.1)
      ~ (sortedByTsDesc t).filter (fun p => ! (trimVictims max t).contains p.1) :=
        ((sortedByTsDesc_perm t).filter _).symm
    _ = (sortedByTsDesc t).take max := filter_not_victim_eq_take max t

lemma trim_length (max : Nat) (t : List Row) :
    (trim max t).length = min t.length max := by
  rw [(trim_perm_take max t).length_eq, List.length_map, List.length_take,
    sortedByTsDesc_length, Nat.min_comm]

/-- Trimming only deletes rows: the survivors are a subsequence of the
table, in unchanged order. -/
lemma trim_sublist (max : Nat) (t : List Row) : trim max t <+ t := by
  have h : (t.enum.filter (fun p => ! (trimVictims max t).contains p.1))
      <+ t.enum := List.filter_sublist _
  have h2 := h.map Prod.snd
  rwa [List.enum_map_snd] at h2

/-- A table within the retention bound is untouched by the trim. -/
lemma trim_eq_self (max : Nat) (t : List Row) (h : t.length ≤ max) :
    trim max t = t := by
  have hdrop : (sortedByTsDesc t).drop max = [] :=
    List.drop_eq_nil_of_le (by rw [sortedByTsDesc_length]; exact h)
  unfold trim trimVictims
  rw [hdrop]
  have hall : ∀ p ∈ t.enum,
      (! (([] : List (Nat × Row)).map Prod.fst).contains p.1) = true := by
    intro p _; rfl
  rw [List.filter_eq_self.mpr hall, List.enum_map_snd]

/-- The table splits, as a multiset, into the trim survivors and the
removed rows. -/
lemma trim_perm_decomp (max : Nat) (t : List Row) :
    t ~ trim max t ++ removedRows max t := by
  have h1 : t ~ (sortedByTsDesc t).map Prod.snd := by
    have h := (sortedByTsDesc_perm t).map Prod.snd
    rw [List.enum_map_snd] at h
    exact h.symm
  calc t ~ (sortedByTsDesc t).map Prod.snd := h1
    _ = ((sortedByTsDesc t).take max).map Prod.snd ++ removedRows max t := by
        unfold removedRows
        rw [← List.map_append, List.take_append_drop]
    _ ~ trim max t ++ removedRows max t :=
        List.Perm.append_right _ (trim_perm_take max t).symm

/-- Every row the trim removes is at least as old as every row it keeps:
only the oldest excess is deleted, never a row inside the retained
window. -/
lemma removed_le_kept (max : Nat) (t : List Row) :
    ∀ v ∈ removedRows max t, ∀ k ∈ trim max t,
      v.timestamp ≤ k.timestamp := by
  intro v hv k hk
  rcases List.mem_map.mp hv with ⟨pv, hpv, rfl⟩
  have hk' : k ∈ ((sortedByTsDesc t).take max).map Prod.snd :=
    (trim_perm_take max t).subset hk
  rcases List.mem_map.mp hk' with ⟨pk, hpk, rfl⟩
  have hs : List.Pairwise rowDescOrd
      ((sortedByTsDesc t).take max ++ (sortedByTsDesc t).drop max) := by
    rw [List.take_append_drop]
    exact sortedByTsDesc_sorted t
  have hrel : rowDescOrd pk pv :=
    (List.pairwise_append.mp hs).2.2 pk hpk pv hpv
  rcases hrel with h | ⟨h, _⟩
  · exact le_of_lt h
  · exact le_of_eq h.symm

lemma parseRow_time (c : Candle) (r : Row) (h : parseRow c = some r) :
    r.timestamp = c.time := by
  unfold parseRow at h
  rcases ho : parseDecimal c.mid.o with _ | o <;> rw [ho] at h <;>
    rcases hh : parseDecimal c.mid.h with _ | hv <;> rw [hh] at h <;>
    rcases hl : parseDecimal c.mid.l with _ | l <;> rw [hl] at h <;>
    rcases hc : parseDecimal c.mid.c with _ | cv <;> rw [hc] at h <;>
    simp at h
  rw [← h]

lemma insertComplete_eq_append (candles : List Candle) :
    ∀ t, (∀ c ∈ candles, c.complete = true → (parseRow c).isSome) →
      insertComplete candles t = some (t ++ newRows candles) := by
  induction candles with
  | nil => intro t _; simp [insertComplete, newRows]
  | cons c rest ih =>
      intro t hp
      by_cases hc : c.complete
      · have hps : (parseRow c).isSome := hp c (List.mem_cons_self c rest) hc
        rcases Option.isSome_iff_exists.mp hps with ⟨r, hr⟩
        have hrest := ih (t ++ [r]) (fun c' h' hc' =>
          hp c' (List.mem_cons_of_mem c h') hc')
        simp [insertComplete, hc, hr, hrest, newRows, List.filterMap_cons]
      · have hrest := ih t (fun c' h' hc' =>
          hp c' (List.mem_cons_of_mem c h') hc')
        simp [insertComplete, hc, hrest, newRows, List.filterMap_cons]

lemma insertComplete_all_incomplete (candles : List Candle)
    (h : ∀ c ∈ candles, c.complete = false) :
    ∀ t, insertComplete candles t = some t := by
  induction candles with
  | nil => intro t; rfl
  | cons c rest ih =>
      intro t
      have hc : c.complete = false := h c (List.mem_cons_self c rest)
      simp [insertComplete, hc,
        ih (fun c' h' => h c' (List.mem_cons_of_mem c h'))]

lemma newRows_mem (candles : List Candle) (r : Row) (h : r ∈ newRows candles) :
    ∃ c ∈ candles, c.complete = true ∧ parseRow c = some r := by
  rcases List.mem_filterMap.mp h with ⟨c, hc, hcr⟩
  by_cases hcomp : c.complete
  · exact ⟨c, hc, hcomp, by simpa [hcomp] using hcr⟩
  · simp [hcomp] at hcr

lemma newRows_ts_sublist (candles : List Candle) :
    (newRows candles).map Row.timestamp <+ candles.map Candle.time := by
  induction candles with
  | nil => simp [newRows]
  | cons c rest ih =>
      by_cases hc : c.complete
      · rcases hr : parseRow c with _ | r
        · simp only [newRows, List.filterMap_cons, hc, if_pos, hr]
          exact ih.cons _
        · have ht := parseRow_time c r hr
          simp only [newRows, List.filterMap_cons, hc, if_pos, hr,
            List.map_cons, ht]
          exact ih.cons₂ _
      · simp only [newRows, List.filterMap_cons, hc]
        exact ih.cons _

lemma newRows_length (candles : List Candle)
    (hp : ∀ c ∈ candles, c.complete = true → (parseRow c).isSome) :
    (newRows candles).length
      = (candles.filter (fun c => c.complete)).length := by
  induction candles with
  | nil => rfl
  | cons c rest ih =>
      have hrest := ih (fun c' h' hc' =>
        hp c' (List.mem_cons_of_mem c h') hc')
      by_cases hc : c.complete
      · have hps : (parseRow c).isSome := hp c (List.mem_cons_self c rest) hc
        rcases Option.isSome_iff_exists.mp hps with ⟨r, hr⟩
        simpa [newRows, List.filterMap_cons, List.filter_cons, hc, hr]
          using hrest
      · simpa [newRows, List.filterMap_cons, List.filter_cons, hc]
          using hrest

lemma execInserts_noFail (candles : List Candle) :
    ∀ t i, ∃ j, execInserts noFail candles t i
      = (insertComplete candles t).map (fun p => (p, j)) := by
  induction candles with
  | nil => intro t i; exact ⟨i, rfl⟩
  | cons c rest ih =>
      intro t i
      by_cases hc : c.complete
      · rcases hr : parseRow c with _ | r
        · exact ⟨i, by simp [execInserts, insertComplete, hc, hr]⟩
        · rcases ih (t ++ [r]) (i + 1) with ⟨j, hj⟩
          exact ⟨j, by simp [execInserts, insertComplete, hc, hr, noFail, hj]⟩
      · rcases ih t i with ⟨j, hj⟩
        exact ⟨j, by simp [execInserts, insertComplete, hc, hj]⟩

/-- With no statement failures, `insert_candles` commits exactly the
insert-then-trim result, and rolls back exactly on parse failure. -/
lemma insert_candles_noFail_eq (t : List Row) (candles : List Candle) :
    insert_candles noFail t candles
      = match insertComplete candles t with
        | none => .rolledBack t
        | some p => .committed (trim MAX_CANDLES p) := by
  unfold insert_candles
  rcases execInserts_noFail candles t 0 with ⟨j, hj⟩
  rw [hj]
  rcases h : insertComplete candles t with _ | p <;> simp [noFail]

/-- Whatever statements fail, a successful pass over the batch produces
exactly the full insertion result. -/
lemma execInserts_sound (fail : Nat → Bool) (candles : List Candle) :
    ∀ t i, execInserts fail candles t i = none ∨
      ∃ p j, execInserts fail candles t i = some (p, j) ∧
        insertComplete candles t = some p := by
  induction candles with
  | nil => intro t i; exact Or.inr ⟨t, i, rfl, rfl⟩
  | cons c rest ih =>
      intro t i
      by_cases hc : c.complete
      · rcases hr : parseRow c with _ | r
        · exact Or.inl (by simp [execInserts, hc, hr])
        · rcases hf : fail i with _ | _
          · rcases ih (t ++ [r]) (i + 1) with hnone | ⟨p, j, hexec, hins⟩
            · exact Or.inl (by simp [execInserts, hc, hr, hf, hnone])
            · exact Or.inr ⟨p, j, by simp [execInserts, hc, hr, hf, hexec],
                by simp [insertComplete, hc, hr, hins]⟩
          · exact Or.inl (by simp [execInserts, hc, hr, hf])
      · rcases ih t i with hnone | ⟨p, j, hexec, hins⟩
        · exact Or.inl (by simp [execInserts, hc, hnone])
        · exact Or.inr ⟨p, j, by simp [execInserts, hc, hexec],
            by simp [insertComplete, hc, hins]⟩

/-- A complete candle with an unparseable price field aborts the
transaction no matter which statements succeed. -/
lemma execInserts_bad (fail : Nat → Bool) (candles : List Candle)
    (hbad : ∃ c ∈ candles, c.complete = true ∧ parseRow c = none) :
    ∀ t i, execInserts fail candles t i = none := by
  induction candles with
  | nil => rcases hbad with ⟨c, hc, _⟩; exact absurd hc (List.not_mem_nil c)
  | cons c rest ih =>
      intro t i
      rcases hbad with ⟨c', hc', hcomp', hparse'⟩
      rcases List.mem_cons.mp hc' with rfl | hmem
      · simp [execInserts, hcomp', hparse']
      · by_cases hc : c.complete
        · rcases hr : parseRow c with _ | r
          · simp [execInserts, hc, hr]
          · rcases hf : fail i with _ | _
            · simp [execInserts, hc, hr, hf,
                ih ⟨c', hmem, hcomp', hparse'⟩ (t ++ [r]) (i + 1)]
            · simp [execInserts, hc, hr, hf]
        · simp [execInserts, hc, ih ⟨c', hmem, hcomp', hparse'⟩ t i]

lemma resumePoint_some_none : resumePoint none = none := rfl

lemma resumePoint_empty : resumePoint (some []) = none := rfl

lemma queryLastTimestamp_some (rows : List Row) :
    queryLastTimestamp (some rows)
      = match (rows.insertionSort tsDescOrd).head? with
        | none => Except.error DbError.noRows
        | some r => Except.ok r.timestamp := rfl

lemma resumePoint_isSome (rows : List Row) (h : rows ≠ []) :
    (resumePoint (some rows)).isSome := by
  unfold resumePoint
  rw [queryLastTimestamp_some]
  rcases hh : (rows.insertionSort tsDescOrd).head? with _ | r
  · have hp := List.perm_insertionSort tsDescOrd rows
    rw [List.head?_eq_none_iff] at hh
    rw [hh] at hp
    exact absurd hp.nil_eq.symm h
  · rfl

/-- A found resume point is the maximum stored timestamp. -/
lemma resumePoint_max (rows : List Row) (T : Int)
    (h : resumePoint (some rows) = some T) :
    (∃ r ∈ rows, r.timestamp = T) ∧ ∀ r ∈ rows, r.timestamp ≤ T := by
  unfold resumePoint at h
  rw [queryLastTimestamp_some] at h
  rcases hs : rows.insertionSort tsDescOrd with _ | ⟨a, tail⟩ <;> rw [hs] at h
  · simp [Except.toOption] at h
  · simp only [List.head?_cons, Except.toOption] at h
    have hT : a.timestamp = T := Option.some.inj h
    have hperm : List.Perm (a :: tail) rows := by
      rw [← hs]; exact List.perm_insertionSort tsDescOrd rows
    have hsorted : List.Sorted tsDescOrd (a :: tail) := by
      rw [← hs]; exact List.sorted_insertionSort tsDescOrd rows
    refine ⟨⟨a, hperm.subset (List.mem_cons_self a tail), hT⟩, ?_⟩
    intro r hr
    rcases List.mem_cons.mp (hperm.symm.subset hr) with rfl | hmem
    · exact le_of_eq hT
    · exact hT ▸ (List.sorted_cons.mp hsorted).1 r hmem

/-- C2: for every table and batch, after `insert_candles` commits, the
table holds at most `MAX_CANDLES` (2000) rows; the retained rows are
exactly the `min n 2000` most recent by stored timestamp — they are a
subsequence of the pre-trim table, the table splits into retained plus
removed rows, and every removed row is at least as old as every retained
row. -/
theorem claim2_retention_bound (t : List Row) (candles : List Candle)
    (hp : ∀ c ∈ candles, c.complete = true → (parseRow c).isSome) :
    ∃ t', insert_candles noFail t candles = .committed t' ∧
      t'.length ≤ MAX_CANDLES ∧
      t'.length = min (t ++ newRows candles).length MAX_CANDLES ∧
      t' <+ t ++ newRows candles ∧
      List.Perm (t ++ newRows candles)
        (t' ++ removedRows MAX_CANDLES (t ++ newRows candles)) ∧
      ∀ v ∈ removedRows MAX_CANDLES (t ++ newRows candles), ∀ k ∈ t',
        v.timestamp ≤ k.timestamp := by
  refine ⟨trim MAX_CANDLES (t ++ newRows candles), ?_, ?_, trim_length _ _,
    trim_sublist _ _, trim_perm_decomp _ _, removed_le_kept _ _⟩
  · rw [insert_candles_noFail_eq, insertComplete_eq_append candles t hp]
  · rw [trim_length]
    exact Nat.min_le_right _ _

/-- Witness for C2 at a concrete input: one complete candle on an empty
table. -/
theorem claim2_retention_bound_witness :
    (∀ c ∈ ([⟨100, true, 5, ⟨"1", "2", "0.5", "1.5"⟩⟩] : List Candle),
      c.complete = true → (parseRow c).isSome) ∧
    ∃ t', insert_candles noFail []
        [⟨100, true, 5, ⟨"1", "2", "0.5", "1.5"⟩⟩] = .committed t' ∧
      t'.length ≤ MAX_CANDLES ∧
      t'.length = min ([] ++ newRows
        [⟨100, true, 5, ⟨"1", "2", "0.5", "1.5"⟩⟩]).length MAX_CANDLES ∧
      t' <+ [] ++ newRows [⟨100, true, 5, ⟨"1", "2", "0.5", "1.5"⟩⟩] ∧
      List.Perm ([] ++ newRows [⟨100, true, 5, ⟨"1", "2", "0.5", "1.5"⟩⟩])
        (t' ++ removedRows MAX_CANDLES
          ([] ++ newRows [⟨100, true, 5, ⟨"1", "2", "0.5", "1.5"⟩⟩])) ∧
      ∀ v ∈ removedRows MAX_CANDLES
          ([] ++ newRows [⟨100, true, 5, ⟨"1", "2", "0.5", "1.5"⟩⟩]),
        ∀ k ∈ t', v.timestamp ≤ k.timestamp :=
  ⟨by decide, claim2_retention_bound [] _ (by decide)⟩

/-- C3: `insert_candles` is all-or-nothing.  Whatever subset of the
statements fails, the call either leaves the durable table exactly in its
pre-call state (rollback) or commits the complete insert-then-trim result
of the whole batch; no partial effect is ever durable. -/
theorem claim3_atomicity (fail : Nat → Bool) (t : List Row)
    (candles : List Candle) :
    insert_candles fail t candles = .rolledBack t ∨
    ∃ p, insertComplete candles t = some p ∧
      insert_candles fail t candles = .committed (trim MAX_CANDLES p) := by
  unfold insert_candles
  rcases execInserts_sound fail candles t 0 with hnone | ⟨p, j, hexec, hins⟩
  · rw [hnone]
    exact Or.inl rfl
  · rw [hexec]
    rcases hf : fail j with _ | _
    · exact Or.inr ⟨p, hins, by simp [hf]⟩
    · exact Or.inl (by simp [hf])

/-- C4: a batch of N candles of which K are incomplete yields exactly
N − K rows considered for insertion; every inserted row comes from a
complete candle (no incomplete candle is ever persisted). -/
theorem claim4_completeness_filter (candles : List Candle) (t : List Row)
    (hp : ∀ c ∈ candles, c.complete = true → (parseRow c).isSome) :
    insertComplete candles t = some (t ++ newRows candles) ∧
    (newRows candles).length
      = candles.length - (candles.filter (fun c => !c.complete)).length ∧
    ∀ r ∈ newRows candles,
      ∃ c ∈ candles, c.complete = true ∧ parseRow c = some r := by
  refine ⟨insertComplete_eq_append candles t hp, ?_,
    fun r hr => newRows_mem candles r hr⟩
  rw [newRows_length candles hp]
  have h := List.length_eq_length_filter_add (l := candles)
    (fun c => c.complete)
  omega

/-- Witness for C4: two candles, one complete and one incomplete. -/
theorem claim4_completeness_filter_witness :
    (∀ c ∈ ([⟨100, true, 5, ⟨"1", "2", "0.5", "1.5"⟩⟩,
        ⟨200, false, 6, ⟨"1", "2", "0.5", "1.5"⟩⟩] : List Candle),
      c.complete = true → (parseRow c).isSome) ∧
    (insertComplete [⟨100, true, 5, ⟨"1", "2", "0.5", "1.5"⟩⟩,
        ⟨200, false, 6, ⟨"1", "2", "0.5", "1.5"⟩⟩] []
      = some ([] ++ newRows [⟨100, true, 5, ⟨"1", "2", "0.5", "1.5"⟩⟩,
          ⟨200, false, 6, ⟨"1", "2", "0.5", "1.5"⟩⟩]) ∧
    (newRows [⟨100, true, 5, ⟨"1", "2", "0.5", "1.5"⟩⟩,
        ⟨200, false, 6, ⟨"1", "2", "0.5", "1.5"⟩⟩]).length
      = ([⟨100, true, 5, ⟨"1", "2", "0.5", "1.5"⟩⟩,
          ⟨200, false, 6, ⟨"1", "2", "0.5", "1.5"⟩⟩] : List Candle).length
        - (([⟨100, true, 5, ⟨"1", "2", "0.5", "1.5"⟩⟩,
            ⟨200, false, 6, ⟨"1", "2", "0.5", "1.5"⟩⟩] : List Candle).filter
              (fun c => !c.complete)).length ∧
    ∀ r ∈ newRows [⟨100, true, 5, ⟨"1", "2", "0.5", "1.5"⟩⟩,
        ⟨200, false, 6, ⟨"1", "2", "0.5", "1.5"⟩⟩],
      ∃ c ∈ ([⟨100, true, 5, ⟨"1", "2", "0.5", "1.5"⟩⟩,
          ⟨200, false, 6, ⟨"1", "2", "0.5", "1.5"⟩⟩] : List Candle),
        c.complete = true ∧ parseRow c = some r) :=
  ⟨by decide, claim4_completeness_filter _ [] (by decide)⟩

/-- C10: the retention trim runs even for a batch with no complete candle:
on a table of more than 2000 rows the call still commits, inserts nothing
(the result is a subsequence of the old table), and deletes exactly the
oldest excess rows down to 2000. -/
theorem claim10_unconditional_trim (t : List Row) (candles : List Candle)
    (hinc : ∀ c ∈ candles, c.complete = false)
    (hlen : MAX_CANDLES < t.length) :
    ∃ t', insert_candles noFail t candles = .committed t' ∧
      t'.length = MAX_CANDLES ∧ t' <+ t ∧
      List.Perm t (t' ++ removedRows MAX_CANDLES t) ∧
      ∀ v ∈ removedRows MAX_CANDLES t, ∀ k ∈ t',
        v.timestamp ≤ k.timestamp := by
  refine ⟨trim MAX_CANDLES t, ?_, ?_, trim_sublist _ _,
    trim_perm_decomp _ _, removed_le_kept _ _⟩
  · rw [insert_candles_noFail_eq, insertComplete_all_incomplete candles hinc t]
  · rw [trim_length]
    omega

/-- Witness for C10: an empty batch against a table of 2001 rows. -/
theorem claim10_unconditional_trim_witness :
    (∀ c ∈ ([] : List Candle), c.complete = false) ∧
    MAX_CANDLES < (List.replicate 2001
      (⟨0, 0, 0, 0, 0, 0⟩ : Row)).length ∧
    ∃ t', insert_candles noFail
        (List.replicate 2001 (⟨0, 0, 0, 0, 0, 0⟩ : Row)) [] = .committed t' ∧
      t'.length = MAX_CANDLES ∧
      t' <+ List.replicate 2001 (⟨0, 0, 0, 0, 0, 0⟩ : Row) ∧
      List.Perm (List.replicate 2001 (⟨0, 0, 0, 0, 0, 0⟩ : Row))
        (t' ++ removedRows MAX_CANDLES
          (List.replicate 2001 (⟨0, 0, 0, 0, 0, 0⟩ : Row))) ∧
      ∀ v ∈ removedRows MAX_CANDLES
          (List.replicate 2001 (⟨0, 0, 0, 0, 0, 0⟩ : Row)), ∀ k ∈ t',
        v.timestamp ≤ k.timestamp :=
  ⟨by decide, by rw [List.length_replicate]; decide,
    claim10_unconditional_trim _ [] (by decide)
      (by rw [List.length_replicate]; decide)⟩

lemma syncTable_def (fail : Nat → Bool) (instrument granularity : String)
    (db : List Candle) (t : List Row) :
    syncTable fail instrument granularity db t
      = insert_candles fail t
          (oandaRespond db
            (fetch_candles instrument granularity (resumePoint (some t)))) :=
  rfl

lemma committed_length_le (t : List Row) (candles : List Candle)
    (t' : List Row) (h : insert_candles noFail t candles = .committed t') :
    t'.length ≤ MAX_CANDLES := by
  rw [insert_candles_noFail_eq] at h
  rcases hic : insertComplete candles t with _ | p <;> rw [hic] at h
  · cases h
  · have ht' : trim MAX_CANDLES p = t' := by injection h
    rw [← ht', trim_length]
    exact Nat.min_le_right _ _

/-- C1: with a stored maximum timestamp `T`, the next fetch carries
`from = T` and — per the upstream's exclusive lower bound — returns only
candles with time strictly greater than `T`; the following append commits,
every row at or below `T` in the resulting table was already present
before the call, and the table still has no duplicate timestamps. -/
theorem claim1_resume_exclusive_no_dup (t : List Row) (db : List Candle)
    (T : Int) (instrument granularity : String)
    (hres : resumePoint (some t) = some T)
    (hnodupT : (t.map Row.timestamp).Nodup)
    (hnodupDb : (db.map Candle.time).Nodup)
    (hparse : ∀ c ∈ db, c.complete = true → (parseRow c).isSome) :
    (∀ c ∈ oandaRespond db
        (fetch_candles instrument granularity (resumePoint (some t))),
      T < c.time) ∧
    ∃ t', insert_candles noFail t
        (oandaRespond db
          (fetch_candles instrument granularity (resumePoint (some t))))
        = .committed t' ∧
      (∀ r ∈ t', r.timestamp ≤ T → r ∈ t) ∧
      (t'.map Row.timestamp).Nodup := by
  rw [hres]
  set resp := oandaRespond db (fetch_candles instrument granularity (some T))
    with hrespdef
  have hrespsub : resp <+ db := by
    rw [hrespdef]
    unfold oandaRespond fetch_candles
    exact (List.take_sublist _ _).trans (List.filter_sublist db)
  have hgt : ∀ c ∈ resp, T < c.time := by
    intro c hc
    rw [hrespdef] at hc
    unfold oandaRespond fetch_candles at hc
    have hc' := List.take_subset _ _ hc
    exact of_decide_eq_true (List.mem_filter.mp hc').2
  have hparse' : ∀ c ∈ resp, c.complete = true → (parseRow c).isSome :=
    fun c hc => hparse c (hrespsub.subset hc)
  have hins := insertComplete_eq_append resp t hparse'
  have hnewgt : ∀ r ∈ newRows resp, T < r.timestamp := by
    intro r hr
    rcases newRows_mem resp r hr with ⟨c, hc, _, hcr⟩
    rw [parseRow_time c r hcr]
    exact hgt c hc
  have hnodupNew : ((newRows resp).map Row.timestamp).Nodup :=
    (((newRows_ts_sublist resp).trans (hrespsub.map Candle.time)).nodup
      hnodupDb)
  have hnodupP : ((t ++ newRows resp).map Row.timestamp).Nodup := by
    rw [List.map_append]
    refine hnodupT.append hnodupNew (List.disjoint_left.mpr ?_)
    intro a ha hb
    rcases List.mem_map.mp ha with ⟨r, hrt, rfl⟩
    rcases List.mem_map.mp hb with ⟨r', hr', he⟩
    have h1 : r.timestamp ≤ T := (resumePoint_max t T hres).2 r hrt
    have h2 : T < r'.timestamp := hnewgt r' hr'
    omega
  refine ⟨hgt, trim MAX_CANDLES (t ++ newRows resp), ?_, ?_, ?_⟩
  · rw [insert_candles_noFail_eq, hins]
  · intro r hr hle
    have hr' := (trim_sublist _ _).subset hr
    rcases List.mem_append.mp hr' with h | h
    · exact h
    · exact absurd hle (not_le.mpr (hnewgt r h))
  · exact ((trim_sublist _ _).map Row.timestamp).nodup hnodupP

/-- Witness for C1: a table with maximum timestamp 100 and an upstream
holding one newer complete candle. -/
theorem claim1_resume_exclusive_no_dup_witness :
    (resumePoint (some [(⟨100, 1, 2, 3, 4, 5⟩ : Row)]) = some 100 ∧
      (([(⟨100, 1, 2, 3, 4, 5⟩ : Row)]).map Row.timestamp).Nodup ∧
      (([⟨150, true, 7, ⟨"1", "2", "3", "4"⟩⟩] : List Candle).map
        Candle.time).Nodup) ∧
    (∀ c ∈ oandaRespond [⟨150, true, 7, ⟨"1", "2", "3", "4"⟩⟩]
        (fetch_candles "EUR_USD" "D"
          (resumePoint (some [(⟨100, 1, 2, 3, 4, 5⟩ : Row)]))),
      (100 : Int) < c.time) ∧
    ∃ t', insert_candles noFail [(⟨100, 1, 2, 3, 4, 5⟩ : Row)]
        (oandaRespond [⟨150, true, 7, ⟨"1", "2", "3", "4"⟩⟩]
          (fetch_candles "EUR_USD" "D"
            (resumePoint (some [(⟨100, 1, 2, 3, 4, 5⟩ : Row)]))))
        = .committed t' ∧
      (∀ r ∈ t', r.timestamp ≤ 100 → r ∈ [(⟨100, 1, 2, 3, 4, 5⟩ : Row)]) ∧
      (t'.map Row.timestamp).Nodup :=
  ⟨⟨by decide, by decide, by decide⟩,
    claim1_resume_exclusive_no_dup [⟨100, 1, 2, 3, 4, 5⟩]
      [⟨150, true, 7, ⟨"1", "2", "3", "4"⟩⟩] 100 "EUR_USD" "D"
      (by decide) (by decide) (by decide) (by decide)⟩

/-- C5: a second sync whose upstream holds nothing newer than what the
first committed run stored leaves the table exactly as the first run left
it. -/
theorem claim5_idempotent (instrument granularity : String)
    (db1 db2 : List Candle) (t0 t1 : List Row)
    (h1 : syncTable noFail instrument granularity db1 t0 = .committed t1)
    (h2 : ∀ c ∈ db2, ∃ r ∈ t1, c.time ≤ r.timestamp) :
    syncTable noFail instrument granularity db2 t1 = .committed t1 := by
  have hlen : t1.length ≤ MAX_CANDLES := by
    rw [syncTable_def] at h1
    exact committed_length_le _ _ _ h1
  rcases eq_or_ne t1 [] with rfl | hne
  · have hdb2 : db2 = [] := by
      refine List.eq_nil_iff_forall_not_mem.mpr (fun c hc => ?_)
      rcases h2 c hc with ⟨r, hr, _⟩
      exact absurd hr (List.not_mem_nil r)
    subst hdb2
    rfl
  · rcases Option.isSome_iff_exists.mp (resumePoint_isSome t1 hne)
      with ⟨T, hT⟩
    have hmax := (resumePoint_max t1 T hT).2
    rw [syncTable_def, hT]
    have hfilter : db2.filter (fun c => decide (T < c.time)) = [] := by
      refine List.filter_eq_nil_iff.mpr (fun c hc => ?_)
      rcases h2 c hc with ⟨r, hr, hle⟩
      have := hmax r hr
      simp only [decide_eq_true_eq]
      omega
    unfold oandaRespond fetch_candles
    simp only [hfilter, List.take_nil]
    rw [insert_candles_noFail_eq]
    show TxOutcome.committed (trim MAX_CANDLES t1) = .committed t1
    rw [trim_eq_self _ _ hlen]

/-- Witness for C5: the first run stores one candle at time 100; the
second run's upstream has only a candle at time 50. -/
theorem claim5_idempotent_witness :
    (syncTable noFail "EUR_USD" "D"
        [⟨100, true, 5, ⟨"1", "2", "3", "4"⟩⟩] []
      = .committed [⟨100, 1, 2, 3, 4, 5⟩] ∧
      ∀ c ∈ ([⟨50, true, 7, ⟨"1", "2", "3", "4"⟩⟩] : List Candle),
        ∃ r ∈ ([(⟨100, 1, 2, 3, 4, 5⟩ : Row)]), c.time ≤ r.timestamp) ∧
    syncTable noFail "EUR_USD" "D" [⟨50, true, 7, ⟨"1", "2", "3", "4"⟩⟩]
        [⟨100, 1, 2, 3, 4, 5⟩]
      = .committed [⟨100, 1, 2, 3, 4, 5⟩] :=
  ⟨⟨by decide, by decide⟩,
    claim5_idempotent "EUR_USD" "D" [⟨100, true, 5, ⟨"1", "2", "3", "4"⟩⟩]
      [⟨50, true, 7, ⟨"1", "2", "3", "4"⟩⟩] [] [⟨100, 1, 2, 3, 4, 5⟩]
      (by decide) (by decide)⟩

/-- C6: an instrument is selected iff its lowercased identifier starts
with some whitelist entry, and on the spec's concrete catalog the
selection is exactly `["EUR_USD", "EUR_USD_SHORT"]`. -/
theorem claim6_whitelist_prefix :
    (∀ (whitelist catalog : List String) (inst : String),
      inst ∈ selectInstruments whitelist catalog ↔
        inst ∈ catalog ∧ ∃ w ∈ whitelist,
          startsWithStr (lowerStr inst) w = true) ∧
    selectInstruments ["eur_usd"] ["EUR_USD", "EUR_USD_SHORT", "GBP_USD"]
      = ["EUR_USD", "EUR_USD_SHORT"] := by
  constructor
  · intro wl cat inst
    simp [selectInstruments, List.mem_filter, List.any_eq_true]
  · decide

/-- C7: the resume-point lookup yields the maximum stored timestamp,
`none` on an empty or nonexistent table, and collapses every query error
to `none` exactly like the no-rows case. -/
theorem claim7_resume_lookup :
    (∀ rows T, resumePoint (some rows) = some T →
      (∃ r ∈ rows, r.timestamp = T) ∧ ∀ r ∈ rows, r.timestamp ≤ T) ∧
    (∀ rows, rows ≠ [] → (resumePoint (some rows)).isSome) ∧
    resumePoint (some []) = none ∧
    resumePoint none = none ∧
    (∀ table e, queryLastTimestamp table = .error e →
      resumePoint table = none) ∧
    ∀ db instrument granularity,
      oandaRespond db (fetch_candles instrument granularity none)
        = db.take 500 := by
  refine ⟨resumePoint_max, resumePoint_isSome, rfl, rfl, ?_,
    fun db instrument granularity => rfl⟩
  intro table e h
  unfold resumePoint
  rw [h]
  rfl

/-- Witness for C7: a one-row table with timestamp 100, and the
nonexistent-table case. -/
theorem claim7_resume_lookup_witness :
    ((∃ r ∈ [(⟨100, 1, 2, 3, 4, 5⟩ : Row)], r.timestamp = 100) ∧
      ∀ r ∈ [(⟨100, 1, 2, 3, 4, 5⟩ : Row)], r.timestamp ≤ 100) ∧
    resumePoint none = none :=
  ⟨claim7_resume_lookup.1 [⟨100, 1, 2, 3, 4, 5⟩] 100 (by decide),
    claim7_resume_lookup.2.2.2.1⟩

/-- C8: a complete candle whose price string fails to parse makes the
whole call roll back — fatal for the run, with the table left untouched
and no defaulted value ever stored. -/
theorem claim8_parse_failure_fatal (fail : Nat → Bool) (t : List Row)
    (candles : List Candle)
    (hbad : ∃ c ∈ candles, c.complete = true ∧ parseRow c = none) :
    insert_candles fail t candles = .rolledBack t := by
  unfold insert_candles
  rw [execInserts_bad fail candles hbad t 0]

/-- Witness for C8: an unparseable open-price string on a complete
candle. -/
theorem claim8_parse_failure_fatal_witness :
    (∃ c ∈ ([⟨100, true, 5, ⟨"abc", "2", "3", "4"⟩⟩] : List Candle),
      c.complete = true ∧ parseRow c = none) ∧
    insert_candles noFail [] [⟨100, true, 5, ⟨"abc", "2", "3", "4"⟩⟩]
      = .rolledBack [] :=
  ⟨by decide, claim8_parse_failure_fatal noFail [] _ (by decide)⟩

/-- C9: an empty `--tickers` override yields the whitelist `[""]`, and
with it every catalog instrument is selected. -/
theorem claim9_empty_tickers_selects_all :
    parseTickers "" = [""] ∧
    ∀ catalog, selectInstruments (parseTickers "") catalog = catalog := by
  constructor
  · rfl
  · intro catalog
    have h9 : parseTickers "" = [""] := rfl
    unfold selectInstruments
    rw [h9]
    refine List.filter_eq_self.mpr (fun inst _ => ?_)
    simp only [List.any_cons, List.any_nil, Bool.or_false]
    unfold startsWithStr
    rw [ List.isPrefixOf_iff_prefix]
    exact List.nil_prefix

end Oanda
